import Mathlib

/-!
A shallow embedding of `plot_transcript.py` (flemingtonlab/circleVis):
the coordinate transform (`transform`), intron scaling (`scale_introns`),
canonical and backsplice curve generation (`plot_SJ_curves`,
`plot_circles`), gene→transcript resolution (`get_transcript_from_gene`),
junction count reduction and coverage colouring.  Python floats are
modelled by exact rationals (ℚ); Python ints by ℤ.
-/

namespace CircleVis

/-- Number of elements produced by `numpy.arange start stop step` in exact
arithmetic: `⌈(stop - start) / step⌉`, clamped at 0 (empty for `step = 0`,
where numpy raises). -/
def arangeLen (start stop step : ℚ) : ℕ :=
  if step = 0 then 0 else (Int.ceil ((stop - start) / step)).toNat

/-- `numpy.arange start stop step` as the list `start + k·step` for
`k < arangeLen start stop step`. -/
def arange (start stop step : ℚ) : List ℚ :=
  (List.range (arangeLen start stop step)).map (fun (k : ℕ) => start + (k : ℚ) * step)

/-- A junction row `(start, stop, counts)` as fetched by `get_sj`. -/
abbrev Junction := ℚ × ℚ × ℤ

/-- Constant `radian_low` of `plot_SJ_curves`. -/
def radian_low : ℚ := 0.2

/-- Constant `radian_high` of `plot_SJ_curves`. -/
def radian_high : ℚ := 0.4

/-- `step_denominator = 1 / radian_diff` of `plot_SJ_curves`. -/
def step_denominator : ℚ := 1 / (radian_high - radian_low)

/-- The radian correction computed inside `plot_SJ_curves`: four successive
unconditional `if` statements, each one overwriting the value set by the
previous one. -/
def radian_corr (xlen arc_len : ℚ) : ℚ :=
  let r0 : ℚ := 1
  let r1 := if arc_len > xlen / 8 then 2 * arc_len / xlen else r0
  let r2 := if arc_len > xlen / 4 then 1.5 * arc_len / xlen else r1
  let r3 := if arc_len > xlen / 2 then arc_len / xlen else r2
  if arc_len > xlen / 1.2 then 0.4 * arc_len / xlen else r3

/-- The radian correction as the spec words it: a first-match `if/else`
chain checked from the largest threshold (`xlen/1.2`) down to the smallest
(`xlen/8`), defaulting to 1. -/
def radian_corr_fromSpec (xlen arc_len : ℚ) : ℚ :=
  if arc_len > xlen / 1.2 then 0.4 * arc_len / xlen
  else if arc_len > xlen / 2 then arc_len / xlen
  else if arc_len > xlen / 4 then 1.5 * arc_len / xlen
  else if arc_len > xlen / 8 then 2 * arc_len / xlen
  else 1

/-- The arc depths `radians * radian_corr` drawn by `plot_SJ_curves` for a
single junction: nothing when `counts == 0`, otherwise one arc per value of
`radians ∈ arange radian_low radian_high (1 / (counts * step_denominator))`. -/
def arcsForJunction (xlen : ℚ) : Junction → List ℚ
  | (start, stop, counts) =>
      if counts = 0 then []
      else
        (arange radian_low radian_high (1 / ((counts : ℚ) * step_denominator))).map
          (fun radians => radians * radian_corr xlen (stop - start))

/-- All arc depths drawn by `plot_SJ_curves` over a junction list. -/
def plot_SJ_curves (xlen : ℚ) (coordinates : List Junction) : List ℚ :=
  (coordinates.map (arcsForJunction xlen)).flatten

/-- The bezier depth-offsets (`num`, passed as `adjust` to
`draw_backsplice`) drawn by `plot_circles` for a single junction: nothing
when `counts == 0`, otherwise one curve per value of
`num ∈ arange 0.0 0.5 (1 / (counts * 2))`. -/
def circlesForJunction : Junction → List ℚ
  | (_, _, counts) =>
      if counts = 0 then []
      else arange 0 0.5 (1 / ((counts : ℚ) * 2))

/-- All bezier depth-offsets drawn by `plot_circles` over a junction list. -/
def plot_circles (coordinates : List Junction) : List ℚ :=
  (coordinates.map circlesForJunction).flatten

/-- The loop body of `scale_introns`, carrying the previous exon's original
stop (`coords[i-1][1]`) and the previous scaled stop (`newcoords[i-1][1]`). -/
def scaleIntronsGo (s : ℚ) : ℚ → ℚ → List (ℚ × ℚ) → List (ℚ × ℚ)
  | _, _, [] => []
  | prevStop, prevNewStop, c :: rest =>
      let length := c.2 - c.1
      let intron := (c.1 - prevStop) / s
      let left := prevNewStop + intron
      let right := left + length
      (left, right) :: scaleIntronsGo s c.2 right rest

/-- `scale_introns coords scaling_factor`: factor 0 returns the coordinates
unscaled; otherwise the first exon is kept and every later exon is placed
at the previous scaled stop plus the original gap divided by the factor.
(Python raises `IndexError` on an empty list; the claims assume a
non-empty one, so `[]` is mapped to `[]`.) -/
def scale_introns (coords : List (ℚ × ℚ)) (scaling_factor : ℚ) : List (ℚ × ℚ) :=
  if scaling_factor = 0 then coords
  else
    match coords with
    | [] => []
    | c0 :: rest => c0 :: scaleIntronsGo scaling_factor c0.2 c0.2 rest

/-- `[i for j in l for i in j]`: flatten exon spans to the breakpoint list. -/
def flatten_coords (l : List (ℚ × ℚ)) : List ℚ :=
  (l.map (fun p => [p.1, p.2])).flatten

/-- The first-match scan of `transform`: the first index `i` with
`orig_c[i] ≤ query ≤ orig_c[i+1]`; when no pair matches (or the list is a
single pair) the loop leaves `i` at the last pair index. -/
def scanPair (query : ℚ) : List ℚ → ℕ
  | x :: y :: z :: rest =>
      if x ≤ query ∧ query ≤ y then 0 else 1 + scanPair query (y :: z :: rest)
  | _ => 0

/-- `transform original scaled query`: piecewise-linear remapping.  `none`
models the Python error paths (breakpoint list shorter than 2 → `NameError`
on `left`; scaled index out of range → `IndexError`). -/
def transform (original scaled : List (ℚ × ℚ)) (query : ℚ) : Option ℚ :=
  let orig_c := flatten_coords original
  let scal_c := flatten_coords scaled
  if orig_c.length < 2 then none
  else
    let i := scanPair query orig_c
    let left := orig_c.getD i 0
    let right := orig_c.getD (i + 1) 0
    if i + 2 < scal_c.length then
      let n_left := scal_c.getD i 0
      let n_right := scal_c.getD (i + 1) 0
      let n_range := n_right - n_left
      let o_range := right - left
      if o_range = 0 then some n_left
      else some ((query - left) * n_range / o_range + n_left)
    else if i < scal_c.length then
      let n_left := scal_c.getD i 0
      let n_right := query
      let n_range := n_right - n_left
      let o_range := right - left
      if o_range = 0 then some n_left
      else some ((query - left) * n_range / o_range + n_left)
    else none

/-- The count-reduction list comprehension
`[(i, j, k // d) for i, j, k in junctions]` (Python `//` is floor
division, `Int.fdiv`). -/
def reduce_counts (d : ℤ) (junctions : List Junction) : List Junction :=
  junctions.map (fun j => (j.1, j.2.1, Int.fdiv j.2.2 d))

/-- A `coverage`-table row for one gene: `(transcript, start, stop)`. -/
abbrev Row := String × ℤ × ℤ

/-- The length contribution `1 + (stop - start)` of one row. -/
def rowLen (r : Row) : ℤ := 1 + (r.2.2 - r.2.1)

/-- `transcripts[t] += v` on an insertion-ordered association list,
modelling Python's `defaultdict(int)`: the first entry with key `t` is
updated in place, a new key is appended at the end. -/
def addRow : List (String × ℤ) → String → ℤ → List (String × ℤ)
  | [], t, v => [(t, v)]
  | p :: rest, t, v =>
      if p.1 = t then (p.1, p.2 + v) :: rest else p :: addRow rest t v

/-- The length-accumulation loop of `get_transcript_from_gene`. -/
def tally (rows : List Row) : List (String × ℤ) :=
  rows.foldl (fun acc r => addRow acc r.1 (rowLen r)) []

/-- The maximum scan of `get_transcript_from_gene`: strict `length > m`,
starting from `m = 0`, `longest = ""`, so the first transcript attaining
the maximum is kept on ties. -/
def pickLongest : List (String × ℤ) → ℤ → String → String
  | [], _, longest => longest
  | p :: rest, m, longest =>
      if p.2 > m then pickLongest rest p.2 p.1 else pickLongest rest m longest

/-- `get_transcript_from_gene`, with the database fetch abstracted as the
row list it returns. -/
def get_transcript_from_gene (rows : List Row) : String :=
  pickLongest (tally rows) 0 ""

/-- Spec-side definition: the summed exonic length of transcript `t`
(sum of `stop - start + 1` over its rows). -/
def sumLen (rows : List Row) (t : String) : ℤ :=
  ((rows.filter (fun r => r.1 = t)).map rowLen).sum

/-- Python `max` over a list: `none` on the empty list (where Python
raises `ValueError`). -/
def pyMax : List ℚ → Option ℚ
  | [] => none
  | h :: t => some (t.foldl max h)

/-- The per-sample colour assignment of the module body: each coverage
value `i` becomes the RGBA tuple `color + (i / max_coverage,)`, except that
a zero maximum assigns alpha 0 throughout instead of dividing. -/
def assignColors (color : ℚ × ℚ × ℚ) (coverage : List ℚ) :
    Option (List ((ℚ × ℚ × ℚ) × ℚ)) :=
  match pyMax coverage with
  | none => none
  | some max_coverage =>
      if max_coverage ≠ 0 then
        some (coverage.map (fun i => (color, i / max_coverage)))
      else
        some (coverage.map (fun _ => (color, 0)))

/-! ### Helper lemmas -/

lemma getD_range_map (f : ℕ → ℚ) (n k : ℕ) (hk : k < n) :
    ((List.range n).map f).getD k 0 = f k := by
  rw [List.getD_eq_getElem?_getD, List.getElem?_map, List.getElem?_range hk]
  rfl

lemma step_denominator_eq : step_denominator = 5 := by
  norm_num [step_denominator, radian_high, radian_low]

lemma arangeLen_circles (c : ℤ) (hc : 0 < c) :
    arangeLen 0 0.5 (1 / ((c : ℚ) * 2)) = c.toNat := by
  have hcq : ((c : ℚ)) ≠ 0 := Int.cast_ne_zero.mpr hc.ne'
  have hstep : (1 : ℚ) / ((c : ℚ) * 2) ≠ 0 :=
    div_ne_zero one_ne_zero (mul_ne_zero hcq two_ne_zero)
  have hratio : ((0.5 : ℚ) - 0) / (1 / ((c : ℚ) * 2)) = (c : ℚ) := by
    field_simp
    ring
  rw [arangeLen, if_neg hstep, hratio, Int.ceil_intCast]

lemma arangeLen_arcs (c : ℤ) (hc : 0 < c) :
    arangeLen radian_low radian_high (1 / ((c : ℚ) * step_denominator)) = c.toNat := by
  have hcq : ((c : ℚ)) ≠ 0 := Int.cast_ne_zero.mpr hc.ne'
  have hstep : (1 : ℚ) / ((c : ℚ) * step_denominator) ≠ 0 := by
    rw [step_denominator_eq]
    exact div_ne_zero one_ne_zero (mul_ne_zero hcq (by norm_num))
  have hratio : (radian_high - radian_low) / (1 / ((c : ℚ) * step_denominator)) = (c : ℚ) := by
    rw [step_denominator_eq, radian_high, radian_low]
    field_simp
    ring
  rw [arangeLen, if_neg hstep, hratio, Int.ceil_intCast]

lemma scanPair_match (q : ℚ) : ∀ (l : List ℚ), scanPair q l + 2 < l.length →
    l.getD (scanPair q l) 0 ≤ q ∧ q ≤ l.getD (scanPair q l + 1) 0
  | [] => by intro h; simp [scanPair] at h
  | [x] => by intro h; simp [scanPair] at h
  | [x, y] => by intro h; simp [scanPair] at h
  | x :: y :: z :: rest => by
      intro h
      by_cases hc : x ≤ q ∧ q ≤ y
      · rw [scanPair, if_pos hc]
        simpa using hc
      · rw [scanPair, if_neg hc] at h ⊢
        have hlt : scanPair q (y :: z :: rest) + 2 < (y :: z :: rest).length := by
          simp only [List.length_cons] at h ⊢
          omega
        have ih := scanPair_match q (y :: z :: rest) hlt
        rw [Nat.add_comm 1 (scanPair q (y :: z :: rest))]
        simpa [List.getD_cons_succ] using ih

lemma scaleIntronsGo_length (s : ℚ) (rest : List (ℚ × ℚ)) : ∀ (pos pns : ℚ),
    (scaleIntronsGo s pos pns rest).length = rest.length := by
  induction rest with
  | nil => intro pos pns; rfl
  | cons c t ih =>
      intro pos pns
      simp only [scaleIntronsGo, List.length_cons, ih]

lemma scaleIntronsGo_getD (s : ℚ) (rest : List (ℚ × ℚ)) : ∀ (pos pns : ℚ) (k : ℕ),
    k < rest.length →
    ((scaleIntronsGo s pos pns rest).getD k (0, 0)).2
        - ((scaleIntronsGo s pos pns rest).getD k (0, 0)).1
      = (rest.getD k (0, 0)).2 - (rest.getD k (0, 0)).1 := by
  induction rest with
  | nil => intro pos pns k hk; simp at hk
  | cons c t ih =>
      intro pos pns k hk
      cases k with
      | zero =>
          simp only [scaleIntronsGo, List.getD_cons_zero]
          ring
      | succ k' =>
          simp only [scaleIntronsGo, List.getD_cons_succ]
          exact ih _ _ k' (by simpa using hk)

lemma scaleIntronsGo_chain (s : ℚ) (hs : 0 < s) (rest : List (ℚ × ℚ)) : ∀ (pos pns : ℚ),
    (∀ p ∈ rest, p.1 ≤ p.2) →
    List.Chain' (fun a b : ℚ × ℚ => a.2 ≤ b.1) rest →
    (rest ≠ [] → pos ≤ (rest.headD (0, 0)).1) →
    (∀ p ∈ scaleIntronsGo s pos pns rest, p.1 ≤ p.2) ∧
    List.Chain' (fun a b : ℚ × ℚ => a.2 ≤ b.1) (scaleIntronsGo s pos pns rest) ∧
    (scaleIntronsGo s pos pns rest ≠ [] →
      pns ≤ ((scaleIntronsGo s pos pns rest).headD (0, 0)).1) := by
  induction rest with
  | nil =>
      intro pos pns _ _ _
      refine ⟨?_, ?_, ?_⟩ <;> simp [scaleIntronsGo]
  | cons c t ih =>
      intro pos pns hspan hchain hpos
      have hc : c.1 ≤ c.2 := hspan c (List.mem_cons_self c t)
      have hposc : pos ≤ c.1 := by simpa using hpos (by simp)
      have hintron : 0 ≤ (c.1 - pos) / s := div_nonneg (by linarith) hs.le
      have htspan : ∀ p ∈ t, p.1 ≤ p.2 := fun p hp => hspan p (List.mem_cons_of_mem _ hp)
      have htchain : List.Chain' (fun a b : ℚ × ℚ => a.2 ≤ b.1) t := hchain.tail
      have htpos : t ≠ [] → c.2 ≤ (t.headD (0, 0)).1 := by
        intro ht
        cases t with
        | nil => exact absurd rfl ht
        | cons d u =>
            have hcd : c.2 ≤ d.1 := (List.chain'_cons.mp hchain).1
            simpa using hcd
      obtain ⟨ih1, ih2, ih3⟩ := ih c.2 (pns + (c.1 - pos) / s + (c.2 - c.1)) htspan htchain htpos
      simp only [scaleIntronsGo]
      refine ⟨?_, ?_, ?_⟩
      · intro p hp
        rcases List.mem_cons.mp hp with rfl | hp'
        · simp only
          linarith
        · exact ih1 p hp'
      · rw [List.chain'_cons']
        refine ⟨?_, ih2⟩
        intro y hy
        cases hgo : scaleIntronsGo s c.2 (pns + (c.1 - pos) / s + (c.2 - c.1)) t with
        | nil => rw [hgo] at hy; simp at hy
        | cons g gs =>
            rw [hgo] at hy
            have hyg : y = g := by have := hy; simpa using this.symm
            have hhead := ih3 (by rw [hgo]; simp)
            rw [hgo] at hhead
            simp only [List.headD_cons] at hhead
            simpa [hyg] using hhead
      · intro _
        simp only [List.headD_cons]
        linarith

/-- First-match lookup in the association list (Python `transcripts[t]`,
0 for absent keys as with `defaultdict(int)`). -/
def lookupVal : List (String × ℤ) → String → ℤ
  | [], _ => 0
  | p :: rest, t => if p.1 = t then p.2 else lookupVal rest t

/-- The keys of the association list, in order. -/
def keysOf (acc : List (String × ℤ)) : List String := acc.map Prod.fst

lemma addRow_ne_nil (acc : List (String × ℤ)) (t : String) (v : ℤ) :
    addRow acc t v ≠ [] := by
  cases acc with
  | nil => simp [addRow]
  | cons p rest =>
      rw [addRow]
      split <;> simp

lemma foldl_addRow_ne_nil (rows : List Row) : ∀ (acc : List (String × ℤ)), acc ≠ [] →
    rows.foldl (fun acc r => addRow acc r.1 (rowLen r)) acc ≠ [] := by
  induction rows with
  | nil => intro acc h; simpa using h
  | cons r t ih => intro acc _; exact ih _ (addRow_ne_nil acc r.1 (rowLen r))

lemma tally_ne_nil (rows : List Row) (h : rows ≠ []) : tally rows ≠ [] := by
  cases rows with
  | nil => exact absurd rfl h
  | cons r t =>
      rw [tally, List.foldl_cons]
      exact foldl_addRow_ne_nil t _ (addRow_ne_nil [] r.1 (rowLen r))

lemma addRow_pos (t : String) (v : ℤ) (hv : 0 < v) : ∀ (acc : List (String × ℤ)),
    (∀ p ∈ acc, 0 < p.2) → ∀ p ∈ addRow acc t v, 0 < p.2 := by
  intro acc
  induction acc with
  | nil =>
      intro _ p hp
      rw [addRow] at hp
      rcases List.mem_singleton.mp hp with rfl
      exact hv
  | cons q rest ih =>
      intro ha p hp
      rw [addRow] at hp
      by_cases hq : q.1 = t
      · rw [if_pos hq] at hp
        rcases List.mem_cons.mp hp with rfl | hp'
        · have h1 : 0 < q.2 := ha q (List.mem_cons_self _ _)
          show 0 < q.2 + v
          linarith
        · exact ha p (List.mem_cons_of_mem _ hp')
      · rw [if_neg hq] at hp
        rcases List.mem_cons.mp hp with rfl | hp'
        · exact ha p (List.mem_cons_self _ _)
        · exact ih (fun p' hp'' => ha p' (List.mem_cons_of_mem _ hp'')) p hp'

lemma foldl_addRow_pos : ∀ (rows : List Row) (acc : List (String × ℤ)),
    (∀ r ∈ rows, 0 < rowLen r) → (∀ p ∈ acc, 0 < p.2) →
    ∀ p ∈ rows.foldl (fun acc r => addRow acc r.1 (rowLen r)) acc, 0 < p.2 := by
  intro rows
  induction rows with
  | nil => intro acc _ ha p hp; exact ha p (by simpa using hp)
  | cons r t ih =>
      intro acc hrows ha p hp
      rw [List.foldl_cons] at hp
      exact ih _ (fun r' hr' => hrows r' (List.mem_cons_of_mem _ hr'))
        (addRow_pos r.1 (rowLen r) (hrows r (List.mem_cons_self _ _)) acc ha) p hp

lemma lookupVal_addRow_same : ∀ (acc : List (String × ℤ)) (t : String) (v : ℤ),
    lookupVal (addRow acc t v) t = lookupVal acc t + v := by
  intro acc t v
  induction acc with
  | nil => simp [addRow, lookupVal]
  | cons p rest ih =>
      by_cases hp : p.1 = t
      · rw [addRow, if_pos hp]
        simp [lookupVal, hp]
      · rw [addRow, if_neg hp]
        simp [lookupVal, hp, ih]

lemma lookupVal_addRow_other : ∀ (acc : List (String × ℤ)) (t : String) (v : ℤ)
    (q : String), q ≠ t → lookupVal (addRow acc t v) q = lookupVal acc q := by
  intro acc t v q hq
  have htq : t ≠ q := fun h => hq h.symm
  induction acc with
  | nil => simp [addRow, lookupVal, htq]
  | cons p rest ih =>
      by_cases hp : p.1 = t
      · rw [addRow, if_pos hp]
        have hpq : p.1 ≠ q := fun h => hq (h ▸ hp)
        simp [lookupVal, hpq]
      · rw [addRow, if_neg hp]
        by_cases hpq : p.1 = q
        · simp [lookupVal, hpq]
        · simp [lookupVal, hpq, ih]

lemma sumLen_cons (r : Row) (rows : List Row) (t : String) :
    sumLen (r :: rows) t = (if r.1 = t then rowLen r else 0) + sumLen rows t := by
  by_cases h : r.1 = t <;> simp [sumLen, List.filter_cons, h]

lemma lookupVal_foldl : ∀ (rows : List Row) (acc : List (String × ℤ)) (t : String),
    lookupVal (rows.foldl (fun acc r => addRow acc r.1 (rowLen r)) acc) t
      = lookupVal acc t + sumLen rows t := by
  intro rows
  induction rows with
  | nil => intro acc t; simp [sumLen]
  | cons r rest ih =>
      intro acc t
      rw [List.foldl_cons, ih, sumLen_cons]
      by_cases hr : r.1 = t
      · subst hr
        rw [lookupVal_addRow_same, if_pos rfl]
        ring
      · rw [lookupVal_addRow_other acc r.1 (rowLen r) t (fun h => hr h.symm), if_neg hr]
        ring

lemma lookupVal_tally (rows : List Row) (t : String) :
    lookupVal (tally rows) t = sumLen rows t := by
  rw [tally, lookupVal_foldl rows [] t]
  simp [lookupVal]

lemma keysOf_addRow_cases : ∀ (acc : List (String × ℤ)) (t : String) (v : ℤ),
    (t ∈ keysOf acc ∧ keysOf (addRow acc t v) = keysOf acc) ∨
    (t ∉ keysOf acc ∧ keysOf (addRow acc t v) = keysOf acc ++ [t]) := by
  intro acc t v
  induction acc with
  | nil => exact Or.inr ⟨by simp [keysOf], by simp [addRow, keysOf]⟩
  | cons p rest ih =>
      by_cases hp : p.1 = t
      · refine Or.inl ⟨?_, ?_⟩
        · simp [keysOf, hp]
        · rw [addRow, if_pos hp]
          simp [keysOf]
      · rcases ih with ⟨hm, he⟩ | ⟨hm, he⟩
        · refine Or.inl ⟨?_, ?_⟩
          · simp only [keysOf, List.map_cons, List.mem_cons]
            exact Or.inr (by simpa [keysOf] using hm)
          · rw [addRow, if_neg hp]
            simp only [keysOf, List.map_cons] at he ⊢
            rw [he]
        · refine Or.inr ⟨?_, ?_⟩
          · simp only [keysOf, List.map_cons, List.mem_cons]
            push_neg
            exact ⟨fun h => hp h.symm, by simpa [keysOf] using hm⟩
          · rw [addRow, if_neg hp]
            simp only [keysOf, List.map_cons, List.cons_append] at he ⊢
            rw [he]

lemma mem_keysOf_addRow (acc : List (String × ℤ)) (t : String) (v : ℤ) (q : String) :
    q ∈ keysOf (addRow acc t v) ↔ q ∈ keysOf acc ∨ q = t := by
  rcases keysOf_addRow_cases acc t v with ⟨hm, he⟩ | ⟨hm, he⟩
  · rw [he]
    constructor
    · exact Or.inl
    · rintro (h | rfl)
      · exact h
      · exact hm
  · rw [he]
    simp

lemma nodup_keysOf_addRow (acc : List (String × ℤ)) (t : String) (v : ℤ)
    (h : (keysOf acc).Nodup) : (keysOf (addRow acc t v)).Nodup := by
  rcases keysOf_addRow_cases acc t v with ⟨_, he⟩ | ⟨hm, he⟩
  · rw [he]; exact h
  · rw [he]
    simp [List.nodup_append, h, hm]

lemma nodup_keysOf_foldl : ∀ (rows : List Row) (acc : List (String × ℤ)),
    (keysOf acc).Nodup →
    (keysOf (rows.foldl (fun acc r => addRow acc r.1 (rowLen r)) acc)).Nodup := by
  intro rows
  induction rows with
  | nil => intro acc h; simpa using h
  | cons r t ih =>
      intro acc h
      rw [List.foldl_cons]
      exact ih _ (nodup_keysOf_addRow acc r.1 (rowLen r) h)

lemma tally_nodup (rows : List Row) : (keysOf (tally rows)).Nodup :=
  nodup_keysOf_foldl rows [] (by simp [keysOf])

lemma mem_lookupVal : ∀ (acc : List (String × ℤ)), (keysOf acc).Nodup →
    ∀ p ∈ acc, lookupVal acc p.1 = p.2 := by
  intro acc
  induction acc with
  | nil => intro _ p hp; simp at hp
  | cons q rest ih =>
      intro hnd p hp
      have hnd' : q.1 ∉ keysOf rest ∧ (keysOf rest).Nodup := by
        simpa [keysOf] using hnd
      rcases List.mem_cons.mp hp with rfl | hp'
      · rw [lookupVal, if_pos rfl]
      · have hmem : p.1 ∈ keysOf rest := by
          simp only [keysOf, List.mem_map]
          exact ⟨p, hp', rfl⟩
        have hq : q.1 ≠ p.1 := fun h => hnd'.1 (h ▸ hmem)
        rw [lookupVal, if_neg hq]
        exact ih hnd'.2 p hp'

lemma mem_keysOf_foldl : ∀ (rows : List Row) (acc : List (String × ℤ)) (t : String),
    t ∈ keysOf (rows.foldl (fun acc r => addRow acc r.1 (rowLen r)) acc) ↔
    t ∈ keysOf acc ∨ ∃ r ∈ rows, r.1 = t := by
  intro rows
  induction rows with
  | nil => intro acc t; simp
  | cons r rest ih =>
      intro acc t
      rw [List.foldl_cons, ih, mem_keysOf_addRow]
      constructor
      · rintro ((h | h) | h)
        · exact Or.inl h
        · exact Or.inr ⟨r, List.mem_cons_self _ _, h.symm⟩
        · obtain ⟨r', hr', hrt⟩ := h
          exact Or.inr ⟨r', List.mem_cons_of_mem _ hr', hrt⟩
      · rintro (h | ⟨r', hr', hrt⟩)
        · exact Or.inl (Or.inl h)
        · rcases List.mem_cons.mp hr' with rfl | hr''
          · exact Or.inl (Or.inr hrt.symm)
          · exact Or.inr ⟨r', hr'', hrt⟩

lemma mem_tally_keys (rows : List Row) (t : String) :
    (∃ p ∈ tally rows, p.1 = t) ↔ ∃ r ∈ rows, r.1 = t := by
  have h1 : (∃ p ∈ tally rows, p.1 = t) ↔ t ∈ keysOf (tally rows) := by
    simp [keysOf, List.mem_map]
  rw [h1, tally, mem_keysOf_foldl rows [] t]
  simp [keysOf]

lemma pickLongest_le : ∀ (l : List (String × ℤ)) (m : ℤ) (long : String),
    (∀ q ∈ l, q.2 ≤ m) → pickLongest l m long = long := by
  intro l
  induction l with
  | nil => intro m long _; rfl
  | cons p rest ih =>
      intro m long hall
      rw [pickLongest, if_neg (not_lt.mpr (hall p (List.mem_cons_self _ _)))]
      exact ih m long (fun q hq => hall q (List.mem_cons_of_mem _ hq))

lemma pickLongest_max : ∀ (l : List (String × ℤ)) (m : ℤ) (long : String),
    (∃ p ∈ l, m < p.2) →
    ∃ (i : ℕ) (hi : i < l.length),
      pickLongest l m long = (l.get ⟨i, hi⟩).1 ∧
      m < (l.get ⟨i, hi⟩).2 ∧
      (∀ j (hj : j < l.length), j < i → (l.get ⟨j, hj⟩).2 < (l.get ⟨i, hi⟩).2) ∧
      (∀ j (hj : j < l.length), (l.get ⟨j, hj⟩).2 ≤ (l.get ⟨i, hi⟩).2) := by
  intro l
  induction l with
  | nil => intro m long h; simp at h
  | cons p rest ih =>
      intro m long hex
      by_cases hpm : p.2 > m
      · by_cases hall : ∀ q ∈ rest, q.2 ≤ p.2
        · refine ⟨0, by simp, ?_, hpm, ?_, ?_⟩
          · rw [pickLongest, if_pos hpm]
            exact pickLongest_le rest p.2 p.1 hall
          · intro j hj hj0
            exact absurd hj0 (Nat.not_lt_zero j)
          · intro j hj
            cases j with
            | zero => exact le_refl _
            | succ j' =>
                have hget : (p :: rest).get ⟨j' + 1, hj⟩
                    = rest.get ⟨j', Nat.lt_of_succ_lt_succ hj⟩ := rfl
                rw [hget]
                exact hall _ (List.get_mem rest j' (Nat.lt_of_succ_lt_succ hj))
        · push_neg at hall
          obtain ⟨q, hq, hq2⟩ := hall
          obtain ⟨i', hi', h1, h2, h3, h4⟩ := ih p.2 p.1 ⟨q, hq, hq2⟩
          refine ⟨i' + 1, Nat.succ_lt_succ hi', ?_, lt_trans hpm h2, ?_, ?_⟩
          · rw [pickLongest, if_pos hpm]
            exact h1
          · intro j hj hji
            cases j with
            | zero => exact h2
            | succ j' => exact h3 j' (Nat.lt_of_succ_lt_succ hj) (Nat.lt_of_succ_lt_succ hji)
          · intro j hj
            cases j with
            | zero => exact le_of_lt h2
            | succ j' => exact h4 j' (Nat.lt_of_succ_lt_succ hj)
      · have hex' : ∃ q ∈ rest, m < q.2 := by
          obtain ⟨q, hq, hq2⟩ := hex
          rcases List.mem_cons.mp hq with rfl | hq'
          · exact absurd hq2 hpm
          · exact ⟨q, hq', hq2⟩
        obtain ⟨i', hi', h1, h2, h3, h4⟩ := ih m long hex'
        refine ⟨i' + 1, Nat.succ_lt_succ hi', ?_, h2, ?_, ?_⟩
        · rw [pickLongest, if_neg hpm]
          exact h1
        · intro j hj hji
          cases j with
          | zero => exact lt_of_le_of_lt (not_lt.mp hpm) h2
          | succ j' => exact h3 j' (Nat.lt_of_succ_lt_succ hj) (Nat.lt_of_succ_lt_succ hji)
        · intro j hj
          cases j with
          | zero => exact le_trans (not_lt.mp hpm) (le_of_lt h2)
          | succ j' => exact h4 j' (Nat.lt_of_succ_lt_succ hj)

lemma foldl_max_zeros : ∀ (t : List ℚ), (∀ c ∈ t, c = 0) → t.foldl max 0 = 0 := by
  intro t
  induction t with
  | nil => intro _; rfl
  | cons c u ih =>
      intro h
      rw [List.foldl_cons, h c (List.mem_cons_self _ _), max_self]
      exact ih (fun c' hc' => h c' (List.mem_cons_of_mem _ hc'))

/-! ### Claim theorems -/

/-- C1, counterexample: for the backsplice junction `(0, 10, 1)` the
Backsplice Curve Generator draws 1 curve, not `2 * count = 2`. -/
theorem c1_counterexample : (circlesForJunction (0, 10, 1)).length ≠ 2 * 1 := by
  rw [circlesForJunction, if_neg (by norm_num : (1 : ℤ) ≠ 0), arange, List.length_map,
    List.length_range, arangeLen_circles 1 (by norm_num)]
  decide

/-- C1, amended: for every backsplice junction with `count > 0` the
Backsplice Curve Generator steps the depth offset from 0.0 to 0.5
exclusive in steps of `1 / (2 * count)`, yielding exactly `count` curves
(not `2 * count`); a junction with `count = 0` draws no curve. -/
theorem c1_curve_count (s e : ℚ) (c : ℤ) :
    (0 < c → (circlesForJunction (s, e, c)).length = c.toNat) ∧
    (c = 0 → circlesForJunction (s, e, c) = []) := by
  constructor
  · intro hc
    rw [circlesForJunction, if_neg hc.ne', arange, List.length_map,
      List.length_range, arangeLen_circles c hc]
  · intro hc
    rw [circlesForJunction, if_pos hc]

/-- Witness for `c1_curve_count` at the junctions `(0, 10, 3)` and
`(0, 10, 0)`. -/
theorem c1_curve_count_witness :
    (circlesForJunction (0, 10, 3)).length = (3 : ℤ).toNat ∧
    circlesForJunction (0, 10, 0) = [] :=
  ⟨(c1_curve_count 0 10 3).1 (by decide), (c1_curve_count 0 10 0).2 rfl⟩

/-- C4, counterexample: on exons `[(100,150),(300,350)]` with factor 2 the
Intron Scaler does not return `[(100,150),(162.5,212.5)]`. -/
theorem c4_counterexample :
    scale_introns [(100, 150), (300, 350)] 2 ≠ [(100, 150), (162.5, 212.5)] := by
  norm_num [scale_introns, scaleIntronsGo]

/-- C4, amended: on exons `[(100,150),(300,350)]` with factor 2 the Intron
Scaler returns `[(100,150),(225,275)]` (the gap of 150 is compressed to 75,
so the second exon starts at `150 + 75 = 225`). -/
theorem c4_value :
    scale_introns [(100, 150), (300, 350)] 2 = [(100, 150), (225, 275)] := by
  norm_num [scale_introns, scaleIntronsGo]

/-- C5: for every canonical junction the Canonical Curve Generator draws
exactly `count` arcs when `count > 0`, stepping radians from 0.2 toward 0.4
in steps of `0.2 / count` (each multiplied by the radian correction), and
draws zero arcs when `count = 0`. -/
theorem c5_arc_count (xlen s e : ℚ) (c : ℤ) :
    (0 < c → (arcsForJunction xlen (s, e, c)).length = c.toNat ∧
      ∀ k, k < c.toNat →
        (arcsForJunction xlen (s, e, c)).getD k 0
          = (radian_low + (k : ℚ) * (radian_low / (c : ℚ))) * radian_corr xlen (e - s)) ∧
    (c = 0 → arcsForJunction xlen (s, e, c) = []) := by
  constructor
  · intro hc
    have hc0 : c ≠ 0 := hc.ne'
    have hcq : ((c : ℚ)) ≠ 0 := Int.cast_ne_zero.mpr hc0
    have hstep : (1 : ℚ) / ((c : ℚ) * step_denominator) = radian_low / (c : ℚ) := by
      rw [step_denominator_eq, radian_low]
      field_simp
      ring
    constructor
    · rw [arcsForJunction, if_neg hc0, arange, List.length_map, List.length_map,
        List.length_range, arangeLen_arcs c hc]
    · intro k hk
      rw [arcsForJunction, if_neg hc0, arange, arangeLen_arcs c hc, List.map_map,
        getD_range_map _ _ _ hk]
      simp only [Function.comp_apply, hstep]
  · intro hc
    rw [arcsForJunction, if_pos hc]

/-- Witness for `c5_arc_count` at the junction `(0, 10, 3)` with
`xlen = 100`, and at `(0, 10, 0)`. -/
theorem c5_arc_count_witness :
    ((arcsForJunction 100 (0, 10, 3)).length = (3 : ℤ).toNat ∧
      ∀ k, k < (3 : ℤ).toNat →
        (arcsForJunction 100 (0, 10, 3)).getD k 0
          = (radian_low + (k : ℚ) * (radian_low / ((3 : ℤ) : ℚ))) * radian_corr 100 (10 - 0)) ∧
    arcsForJunction 100 (0, 10, 0) = [] :=
  ⟨(c5_arc_count 100 0 10 3).1 (by decide), (c5_arc_count 100 0 10 0).2 rfl⟩

/-- C6: the sequential overwriting radian correction of `plot_SJ_curves`
agrees with the last-wins `if/else` chain the spec describes: checking the
four thresholds from `xlen/1.2` down to `xlen/8`, first match wins,
default 1.  (The sequential overwrites literally denote that chain, so the
two definitions agree for every `xlen` and `arc_len`.) -/
theorem c6_last_wins (xlen arc_len : ℚ) :
    radian_corr xlen arc_len = radian_corr_fromSpec xlen arc_len := rfl

/-- C10: a supplied count-reduction divisor `d` replaces each junction
count `c` by the floor `c // d`; a junction with `0 < c < d` therefore
gets count 0 and produces no canonical arcs and no backsplice curves. -/
theorem c10_reduce (s e xlen : ℚ) (c d : ℤ) (hc : 0 < c) (hcd : c < d) :
    Int.fdiv c d = 0 ∧
    reduce_counts d [(s, e, c)] = [(s, e, 0)] ∧
    plot_SJ_curves xlen (reduce_counts d [(s, e, c)]) = [] ∧
    plot_circles (reduce_counts d [(s, e, c)]) = [] := by
  have h0 : Int.fdiv c d = 0 := by
    rw [Int.fdiv_eq_ediv _ (by omega : (0 : ℤ) ≤ d)]
    exact Int.ediv_eq_zero_of_lt (by omega) hcd
  refine ⟨h0, ?_, ?_, ?_⟩
  · simp [reduce_counts, h0]
  · simp [reduce_counts, h0, plot_SJ_curves, arcsForJunction]
  · simp [reduce_counts, h0, plot_circles, circlesForJunction]

/-- Witness for `c10_reduce` at junction `(0, 10, 3)` with divisor 5. -/
theorem c10_reduce_witness :
    Int.fdiv 3 5 = 0 ∧
    reduce_counts 5 [((0 : ℚ), (10 : ℚ), (3 : ℤ))] = [(0, 10, 0)] ∧
    plot_SJ_curves 100 (reduce_counts 5 [((0 : ℚ), (10 : ℚ), (3 : ℤ))]) = [] ∧
    plot_circles (reduce_counts 5 [((0 : ℚ), (10 : ℚ), (3 : ℤ))]) = [] :=
  c10_reduce 0 10 100 3 5 (by decide) (by decide)

/-- C2, counterexample: with `S = [(0,10)]` and the in-range query 5, the
Range Transform returns `5/2`, not `5` — the matched pair is the final one,
so the `len(scal_c) > i + 2` test fails and the extrapolation fallback
(`n_right = query`) applies even though the query is inside the range. -/
theorem c2_counterexample : transform [(0, 10)] [(0, 10)] 5 ≠ some 5 := by
  have h : scanPair 5 (flatten_coords [(0, 10)]) = 0 := rfl
  norm_num [transform, flatten_coords, h, scanPair]

/-- C2, amended: the Range Transform is the identity for every query whose
first matching breakpoint pair is not the final pair of the flattened
list (`scanPair q + 2 < length`); a query matched only by the final pair
takes the fallback branch instead. -/
theorem c2_identity (S : List (ℚ × ℚ)) (q : ℚ)
    (h : scanPair q (flatten_coords S) + 2 < (flatten_coords S).length) :
    transform S S q = some q := by
  obtain ⟨hl, hr⟩ := scanPair_match q (flatten_coords S) h
  simp only [transform]
  rw [if_neg (by omega : ¬ (flatten_coords S).length < 2), if_pos h]
  by_cases h0 :
      (flatten_coords S).getD (scanPair q (flatten_coords S) + 1) 0
        - (flatten_coords S).getD (scanPair q (flatten_coords S)) 0 = 0
  · rw [if_pos h0]
    have heq := sub_eq_zero.mp h0
    have hq : (flatten_coords S).getD (scanPair q (flatten_coords S)) 0 = q :=
      le_antisymm hl (heq ▸ hr)
    rw [hq]
  · rw [if_neg h0]
    rw [mul_div_assoc, div_self h0, mul_one]
    congr 1
    ring

/-- Witness for `c2_identity` at `S = [(0,10),(20,30)]`, `q = 5`. -/
theorem c2_identity_witness : transform [(0, 10), (20, 30)] [(0, 10), (20, 30)] 5 = some 5 :=
  c2_identity [(0, 10), (20, 30)] 5 (by norm_num [flatten_coords, scanPair])

/-- C3: for every non-empty sorted exon list and nonzero factor the Intron
Scaler returns a list of the same length whose first exon is unchanged and
in which every exon keeps its length. -/
theorem c3_preserves (coords : List (ℚ × ℚ)) (s : ℚ) (hs : s ≠ 0) (hne : coords ≠ [])
    (hsorted : List.Pairwise (fun a b : ℚ × ℚ => a.1 ≤ b.1) coords) :
    (scale_introns coords s).length = coords.length ∧
    (scale_introns coords s).headD (0, 0) = coords.headD (0, 0) ∧
    ∀ k, k < coords.length →
      ((scale_introns coords s).getD k (0, 0)).2 - ((scale_introns coords s).getD k (0, 0)).1
        = (coords.getD k (0, 0)).2 - (coords.getD k (0, 0)).1 := by
  cases coords with
  | nil => exact absurd rfl hne
  | cons c0 rest =>
      rw [scale_introns, if_neg hs]
      refine ⟨?_, rfl, ?_⟩
      · simp only [List.length_cons, scaleIntronsGo_length]
      · intro k hk
        cases k with
        | zero => rfl
        | succ k' =>
            simp only [List.getD_cons_succ]
            exact scaleIntronsGo_getD s rest _ _ k' (by simpa using hk)

/-- Witness for `c3_preserves` at exons `[(100,150),(300,350)]`, factor 2. -/
theorem c3_preserves_witness :
    (scale_introns [(100, 150), (300, 350)] 2).length = ([((100:ℚ),(150:ℚ)), (300, 350)]).length ∧
    (scale_introns [(100, 150), (300, 350)] 2).headD (0, 0)
      = ([((100:ℚ),(150:ℚ)), (300, 350)]).headD (0, 0) ∧
    ∀ k, k < ([((100:ℚ),(150:ℚ)), (300, 350)]).length →
      ((scale_introns [(100, 150), (300, 350)] 2).getD k (0, 0)).2
          - ((scale_introns [(100, 150), (300, 350)] 2).getD k (0, 0)).1
        = (([((100:ℚ),(150:ℚ)), (300, 350)]).getD k (0, 0)).2
          - (([((100:ℚ),(150:ℚ)), (300, 350)]).getD k (0, 0)).1 :=
  c3_preserves [(100, 150), (300, 350)] 2 (by norm_num) (by simp)
    (by norm_num)

/-- C7, counterexample: the claim quantifies over every nonzero factor, but
with the valid non-overlapping input `[(0,10),(20,30)]` and the nonzero
factor `-1` the Intron Scaler output `[(0,10),(0,10)]` overlaps. -/
theorem c7_counterexample :
    (-1 : ℚ) ≠ 0 ∧
    List.Chain' (fun a b : ℚ × ℚ => a.2 ≤ b.1) [(0, 10), (20, 30)] ∧
    ¬ List.Chain' (fun a b : ℚ × ℚ => a.2 ≤ b.1) (scale_introns [(0, 10), (20, 30)] (-1)) := by
  refine ⟨by norm_num, ?_, ?_⟩
  · norm_num [List.chain'_cons, List.chain'_singleton]
  · norm_num [scale_introns, scaleIntronsGo, List.chain'_cons, List.chain'_singleton]

/-- C7, amended: for every sorted, mutually non-overlapping exon list and
every positive scale factor the Intron Scaler output consists of valid
spans (`start ≤ stop`) in monotonically increasing, mutually
non-overlapping order. -/
theorem c7_monotone (coords : List (ℚ × ℚ)) (s : ℚ) (hs : 0 < s)
    (hspan : ∀ p ∈ coords, p.1 ≤ p.2)
    (hchain : List.Chain' (fun a b : ℚ × ℚ => a.2 ≤ b.1) coords) :
    (∀ p ∈ scale_introns coords s, p.1 ≤ p.2) ∧
    List.Chain' (fun a b : ℚ × ℚ => a.2 ≤ b.1) (scale_introns coords s) := by
  cases coords with
  | nil =>
      have h : scale_introns [] s = [] := by
        rw [scale_introns]
        split <;> rfl
      rw [h]
      exact ⟨by simp, by simp⟩
  | cons c0 rest =>
      rw [scale_introns, if_neg hs.ne']
      have hc0 : c0.1 ≤ c0.2 := hspan c0 (List.mem_cons_self c0 rest)
      have htspan : ∀ p ∈ rest, p.1 ≤ p.2 := fun p hp => hspan p (List.mem_cons_of_mem _ hp)
      have htchain : List.Chain' (fun a b : ℚ × ℚ => a.2 ≤ b.1) rest := hchain.tail
      have htpos : rest ≠ [] → c0.2 ≤ (rest.headD (0, 0)).1 := by
        intro ht
        cases rest with
        | nil => exact absurd rfl ht
        | cons d u =>
            have hcd : c0.2 ≤ d.1 := (List.chain'_cons.mp hchain).1
            simpa using hcd
      obtain ⟨g1, g2, g3⟩ := scaleIntronsGo_chain s hs rest c0.2 c0.2 htspan htchain htpos
      refine ⟨?_, ?_⟩
      · intro p hp
        rcases List.mem_cons.mp hp with rfl | hp'
        · exact hc0
        · exact g1 p hp'
      · rw [List.chain'_cons']
        refine ⟨?_, g2⟩
        intro y hy
        cases hgo : scaleIntronsGo s c0.2 c0.2 rest with
        | nil => rw [hgo] at hy; simp at hy
        | cons g gs =>
            rw [hgo] at hy
            have hyg : y = g := by have := hy; simpa using this.symm
            have hhead := g3 (by rw [hgo]; simp)
            rw [hgo] at hhead
            simp only [List.headD_cons] at hhead
            simpa [hyg] using hhead

/-- Witness for `c7_monotone` at exons `[(100,150),(300,350)]`, factor 2. -/
theorem c7_monotone_witness :
    (∀ p ∈ scale_introns [(100, 150), (300, 350)] 2, p.1 ≤ p.2) ∧
    List.Chain' (fun a b : ℚ × ℚ => a.2 ≤ b.1) (scale_introns [(100, 150), (300, 350)] 2) :=
  c7_monotone [(100, 150), (300, 350)] 2 (by norm_num)
    (by norm_num) (by norm_num [List.chain'_cons, List.chain'_singleton])

/-- C8: gene→transcript resolution returns a transcript whose tallied
value is its summed exonic length (sum of `stop - start + 1` over its
rows), maximal among all transcripts of the gene (the tally keys are
exactly the transcripts appearing in the rows), and every strictly earlier
transcript in encounter order has a strictly smaller total — so on ties
the first one encountered is returned. -/
theorem c8_longest (rows : List Row) (hne : rows ≠ [])
    (hok : ∀ r ∈ rows, r.2.1 ≤ r.2.2) :
    ∃ (i : ℕ) (hi : i < (tally rows).length),
      get_transcript_from_gene rows = ((tally rows).get ⟨i, hi⟩).1 ∧
      (∀ p ∈ tally rows, p.2 = sumLen rows p.1) ∧
      (∀ p ∈ tally rows, p.2 ≤ ((tally rows).get ⟨i, hi⟩).2) ∧
      (∀ t, (∃ r ∈ rows, r.1 = t) ↔ ∃ p ∈ tally rows, p.1 = t) ∧
      (∀ j (hj : j < (tally rows).length), j < i →
        ((tally rows).get ⟨j, hj⟩).2 < ((tally rows).get ⟨i, hi⟩).2) := by
  have hpos : ∀ r ∈ rows, 0 < rowLen r := by
    intro r hr
    have h := hok r hr
    rw [rowLen]
    omega
  have htne : tally rows ≠ [] := tally_ne_nil rows hne
  have htpos : ∀ p ∈ tally rows, 0 < p.2 := by
    intro p hp
    rw [tally] at hp
    exact foldl_addRow_pos rows [] hpos (by simp) p hp
  have hex : ∃ p ∈ tally rows, (0 : ℤ) < p.2 := by
    obtain ⟨p, hp⟩ := List.exists_mem_of_ne_nil (tally rows) htne
    exact ⟨p, hp, htpos p hp⟩
  obtain ⟨i, hi, h1, _h2, h3, h4⟩ := pickLongest_max (tally rows) 0 "" hex
  refine ⟨i, hi, h1, ?_, ?_, ?_, h3⟩
  · intro p hp
    have hlv := mem_lookupVal (tally rows) (tally_nodup rows) p hp
    rw [← hlv, lookupVal_tally]
  · intro p hp
    obtain ⟨n, rfl⟩ := List.mem_iff_get.mp hp
    exact h4 n.1 n.2
  · intro t
    exact (mem_tally_keys rows t).symm

/-- Witness for `c8_longest` with rows giving transcript A total 500 and
transcript B total 800. -/
theorem c8_longest_witness :
    ∃ (i : ℕ) (hi : i < (tally [("A", 1, 500), ("B", 1, 800)]).length),
      get_transcript_from_gene [("A", 1, 500), ("B", 1, 800)]
        = ((tally [("A", 1, 500), ("B", 1, 800)]).get ⟨i, hi⟩).1 ∧
      (∀ p ∈ tally [("A", 1, 500), ("B", 1, 800)],
        p.2 = sumLen [("A", 1, 500), ("B", 1, 800)] p.1) ∧
      (∀ p ∈ tally [("A", 1, 500), ("B", 1, 800)],
        p.2 ≤ ((tally [("A", 1, 500), ("B", 1, 800)]).get ⟨i, hi⟩).2) ∧
      (∀ t, (∃ r ∈ [(("A" : String), (1 : ℤ), (500 : ℤ)), ("B", 1, 800)], r.1 = t) ↔
        ∃ p ∈ tally [("A", 1, 500), ("B", 1, 800)], p.1 = t) ∧
      (∀ j (hj : j < (tally [("A", 1, 500), ("B", 1, 800)]).length), j < i →
        ((tally [("A", 1, 500), ("B", 1, 800)]).get ⟨j, hj⟩).2
          < ((tally [("A", 1, 500), ("B", 1, 800)]).get ⟨i, hi⟩).2) :=
  c8_longest [("A", 1, 500), ("B", 1, 800)] (by simp) (by decide)

/-- C9: for a sample whose coverage values are all zero the colour step
assigns alpha 0 to every position (taking the guarded branch rather than
dividing); otherwise each position's alpha is its coverage divided by the
maximum coverage. -/
theorem c9_colors (color : ℚ × ℚ × ℚ) (coverage : List ℚ) (hne : coverage ≠ []) :
    ((∀ c ∈ coverage, c = 0) →
      assignColors color coverage = some (coverage.map (fun _ => (color, 0)))) ∧
    (∀ m, pyMax coverage = some m → m ≠ 0 →
      assignColors color coverage = some (coverage.map (fun i => (color, i / m)))) := by
  cases coverage with
  | nil => exact absurd rfl hne
  | cons c0 t =>
      constructor
      · intro hz
        have hc0 : c0 = 0 := hz c0 (List.mem_cons_self _ _)
        have hmax : pyMax (c0 :: t) = some 0 := by
          rw [pyMax, hc0]
          exact congrArg some (foldl_max_zeros t (fun c hc => hz c (List.mem_cons_of_mem _ hc)))
        rw [assignColors, hmax]
        simp
      · intro m hm hm0
        rw [assignColors, hm]
        simp [hm0]

/-- Witness for `c9_colors` at coverage `[0,0,0]` (all-zero branch) and at
coverage `[1,2,4]` with maximum 4 (division branch). -/
theorem c9_colors_witness :
    assignColors (1, 0, 0) [0, 0, 0] = some ([(0 : ℚ), 0, 0].map (fun _ => ((1, 0, 0), 0))) ∧
    assignColors (1, 0, 0) [1, 2, 4] = some ([(1 : ℚ), 2, 4].map (fun i => ((1, 0, 0), i / 4))) :=
  ⟨(c9_colors (1, 0, 0) [0, 0, 0] (by simp)).1 (by norm_num),
   (c9_colors (1, 0, 0) [1, 2, 4] (by simp)).2 4 (by norm_num [pyMax]) (by norm_num)⟩

end CircleVis
